import Mathlib

/- Shallow embedding of the Aask42/TwitchCounter repository
   (src/twitch_word_counter.py and src/app.py).

   The word matcher, the counter table, the audio-segmenter loop, the
   per-chunk recognition handling of process_audio, the elapsed-time
   decomposition of get_elapsed_time, and the HTTP snapshot endpoint
   get_counts of app.py are translated below.  Byte streams are lists of
   chunk reads; a zero-length read models end-of-stream; wall-clock times
   are epoch seconds. -/

/-- Python regex word character (for the ASCII texts considered here):
alphanumeric or underscore.  This is what `\b` in the pattern built at
twitch_word_counter.py:219 tests adjacency against. -/
def isWordChar (c : Char) : Bool := c.isAlphanum || c == '_'

/-- Whether position i of the text holds a word character (out of range
counts as a non-word character, as at the ends of a Python string). -/
def wordAt (t : List Char) (i : Nat) : Bool :=
  match t[i]? with
  | some c => isWordChar c
  | none => false

/-- Python regex `\b` at position i of the text: the word-character status
differs between the character before i and the character at i. -/
def boundary (t : List Char) (i : Nat) : Bool :=
  (decide (0 < i) && wordAt t (i - 1)) != wordAt t i

/-- The literal word w occurs in the text t starting at position p. -/
def occursAt (t w : List Char) (p : Nat) : Bool :=
  decide ((t.drop p).take w.length = w)

/-- The pattern `\b` ++ re.escape(w) ++ `\b` (twitch_word_counter.py:219)
matches t at position p: w occurs there with a `\b` boundary on both
sides. -/
def matchAt (t w : List Char) (p : Nat) : Bool :=
  occursAt t w p && (boundary t p && boundary t (p + w.length))

/-- Left-to-right non-overlapping scan of re.findall: try each position;
on a match, resume after the matched word (a zero-width match advances by
one, as the regex engine does).  The fuel argument bounds the scan by the
text length. -/
def findallGo (t w : List Char) : Nat → Nat → Nat
  | _, 0 => 0
  | p, fuel + 1 =>
    if t.length < p then 0
    else if matchAt t w p then 1 + findallGo t w (p + max w.length 1) fuel
    else findallGo t w (p + 1) fuel

/-- len(re.findall(pattern, text)) for the word-boundary pattern of
twitch_word_counter.py:219-220. -/
def countMatches (t w : List Char) : Nat := findallGo t w 0 (t.length + 1)

/-- Count of matches of target word w in text, on strings. -/
def countWord (text word : String) : Nat := countMatches text.data word.data

/-- Number of positions of the text at which the boundary pattern matches
(no non-overlap constraint); used to characterise countMatches. -/
def boundaryCount (t w : List Char) : Nat :=
  (List.range (t.length + 1)).countP (fun p => matchAt t w p)

/-- Whether position i of the text holds an alphanumeric character. -/
def alnumAt (t : List Char) (i : Nat) : Bool :=
  match t[i]? with
  | some c => c.isAlphanum
  | none => false

/-- Modelled from the spec's words for comparison (spec 4.3: "a match must
not be adjacent to an alphanumeric character on either side"): number of
occurrences of w in t whose neighbours on both sides are not
alphanumeric. -/
def specAlnumCount (t w : List Char) : Nat :=
  (List.range (t.length + 1)).countP (fun p =>
    occursAt t w p && ((decide (p = 0) || !alnumAt t (p - 1)) && !alnumAt t (p + w.length)))

/-- Number of occurrences of w in t whose neighbours on both sides are
not word characters (alphanumeric or underscore): the boundary rule the
code actually implements, stated positionally. -/
def specWordCharCount (t w : List Char) : Nat :=
  (List.range (t.length + 1)).countP (fun p =>
    occursAt t w p && ((decide (p = 0) || !wordAt t (p - 1)) && !wordAt t (p + w.length)))

/-- Python str.lower() for the ASCII strings considered here: lowercase
each character. -/
def str_lower (s : String) : String := ⟨s.data.map Char.toLower⟩

/-- A collections.Counter as used for word_counts
(twitch_word_counter.py:43): insertion-ordered key list plus a total count
function (reading a missing key yields 0 and does not insert it). -/
structure PyCounter where
  keys : List String
  val : String → Nat

/-- Counter(): empty counter table. -/
def PyCounter.empty : PyCounter := ⟨[], fun _ => 0⟩

/-- self.word_counts[word] += n (twitch_word_counter.py:223): inserts the
key on first write, adds n to the stored count.  There is no membership
validation of any kind. -/
def PyCounter.incr (c : PyCounter) (w : String) (n : Nat) : PyCounter :=
  ⟨if w ∈ c.keys then c.keys else c.keys ++ [w],
   fun x => if x = w then c.val x + n else c.val x⟩

/-- The target-word loop of process_audio (twitch_word_counter.py:218-223)
run on one already-lowercased transcript: for each target word compute the
findall count and, only when it is positive, add it to the counter. -/
def processText (tws : List String) (c : PyCounter) (text : String) : PyCounter :=
  tws.foldl (fun acc word =>
    let count := countWord text word
    if 0 < count then acc.incr word count else acc) c

/-- Outcome of self.recognizer.recognize_google on one sub-clip
(twitch_word_counter.py:215, 229, 232): recognized text, or the
UnknownValueError raised when no speech is detected, or the RequestError
raised on a service failure. -/
inductive RecognitionOutcome where
  | text (s : String)
  | unknownValue
  | requestError (msg : String)

/-- The per-sub-clip handling of process_audio
(twitch_word_counter.py:214-233): recognized text is lowercased and
matched against the target words; UnknownValueError is silently passed
over; RequestError appends the error line to the operator-facing log and
is otherwise skipped.  The state is the counter table plus the error
log. -/
def processOutcome (tws : List String) (st : PyCounter × List String)
    (r : RecognitionOutcome) : PyCounter × List String :=
  match r with
  | .text s => (processText tws st.1 (str_lower s), st.2)
  | .unknownValue => st
  | .requestError msg =>
      (st.1, st.2 ++ ["Error with speech recognition service: " ++ msg])

/-- process_audio over a whole stream of recognition outcomes, in queue
order. -/
def processAll (tws : List String) (st : PyCounter × List String)
    (rs : List RecognitionOutcome) : PyCounter × List String :=
  rs.foldl (processOutcome tws) st

/-- The target-word normalization of TwitchWordCounter.__init__
(twitch_word_counter.py:42): a falsy argument (None is modelled as the
empty list) is replaced by the default list, otherwise each word is
lowercased.  No deduplication is performed. -/
def initTargetWords (target_words : List String) : List String :=
  if target_words.isEmpty then ["fuck"] else target_words.map str_lower

/-- The capture loop of stream_audio (twitch_word_counter.py:142-171):
reads arrive as chunks; an empty read (end-of-stream) breaks out of the
loop; each nonempty chunk is appended to the frame accumulator; once
cpr (chunks_per_recording) frames have accumulated they are joined into
one AudioUnit, enqueued, and the accumulator is reset.  The function
returns the queue contents when the loop exits. -/
def streamLoop (cpr : Nat) : List (List Nat) → List (List Nat) → List (List Nat) → List (List Nat)
  | [], _, q => q
  | d :: rest, frames, q =>
    if d = [] then q
    else
      let frames2 := frames ++ [d]
      if cpr ≤ frames2.length then streamLoop cpr rest [] (q ++ [frames2.flatten])
      else streamLoop cpr rest frames2 q

/-- stream_audio run from an empty accumulator and empty queue. -/
def stream_audio (cpr : Nat) (reads : List (List Nat)) : List (List Nat) :=
  streamLoop cpr reads [] []

/-- int(self.rate / self.chunk * self.record_seconds) with the defaults of
twitch_word_counter.py:54-56 and 139. -/
def chunks_per_recording : Nat := 16000 * 5 / 1024

/-- The complete windows of a chunk sequence: consecutive groups of cpr
chunks, each joined into one AudioUnit, with the trailing group of fewer
than cpr chunks dropped; used to characterise what the capture loop
enqueues. -/
def completeWindows (cpr : Nat) (reads : List (List Nat)) : List (List Nat) :=
  if _h : 0 < cpr ∧ cpr ≤ reads.length then
    (reads.take cpr).flatten :: completeWindows cpr (reads.drop cpr)
  else []
termination_by reads.length
decreasing_by
  simp only [List.length_drop]
  omega

/-- Result of get_elapsed_time (twitch_word_counter.py:254-264). -/
structure ElapsedTime where
  hours : Nat
  minutes : Nat
  seconds : Nat
deriving DecidableEq

/-- get_elapsed_time (twitch_word_counter.py:254-264): the timedelta
now - start exposes .seconds, the sub-day remainder of the elapsed
duration; divmod by 3600 and then 60 decomposes it into h/m/s.  Times are
epoch seconds. -/
def get_elapsed_time (start now : Nat) : ElapsedTime :=
  let td := (now - start) % 86400
  ⟨td / 3600, td % 3600 / 60, td % 3600 % 60⟩

/-- The module globals of app.py read by its routes: the word_counts dict
(as an association list) and the cached running_time. -/
structure AppGlobals where
  word_counts : List (String × Nat)
  running_time : ElapsedTime
deriving DecidableEq

/-- The JSON payload of the /api/counts route (app.py:34-41). -/
structure CountsResponse where
  channel : String
  counts : List (String × Nat)
  running_time : ElapsedTime
deriving DecidableEq

/-- get_counts (app.py:34-41): reads the module globals and serializes
them; returns the (unchanged) globals together with the response. -/
def get_counts (channel : String) (g : AppGlobals) : AppGlobals × CountsResponse :=
  (g, ⟨channel, g.word_counts, g.running_time⟩)

/-- End-to-end scenario 1 of the spec: target words ["fuck"], the
transcription stage yields "that is fucked up" and then "I love this
fucking game". -/
def scenario1 : PyCounter :=
  (processAll ["fuck"] (PyCounter.empty, [])
    [RecognitionOutcome.text "that is fucked up",
     RecognitionOutcome.text "I love this fucking game"]).1

/- ------------------------------------------------------------------ -/
/- Theorems -/
/- ------------------------------------------------------------------ -/

/-- C1 (counterexample): in scenario 1 the final count recorded for
"fuck" is not 2: both transcripts contain "fuck" only inside the longer
words "fucked" and "fucking", which the word-boundary pattern rejects. -/
theorem c1_counterexample : scenario1.val "fuck" ≠ 2 := by decide

/-- C1 (amended): for the session with target word set ["fuck"], when the
transcription stage yields "that is fucked up" and then "I love this
fucking game", the final count recorded for "fuck" equals 0, because each
occurrence of "fuck" is a proper substring of a longer word. -/
theorem c1_amended : scenario1.val "fuck" = 0 := by decide

/-- C3 (counterexample): with two chunks per recording, a stream yielding
one data chunk and then end-of-stream enqueues nothing: the partially
accumulated frame is discarded, not flushed as a final AudioUnit. -/
theorem c3_counterexample : stream_audio 2 [[1], []] = [] := by decide

/-- C4 (counterexample): incrementing the counter table for a word outside
any target set does not fail: it silently inserts the key and updates the
count (here from 0 to 1). -/
theorem c4_counterexample :
    (PyCounter.empty.incr "zzz" 1).val "zzz" = 1 ∧ PyCounter.empty.val "zzz" = 0 := by
  decide

/-- C5: elapsed() at T0 + 3725 seconds yields 1 h 2 m 5 s, and in general
get_elapsed_time decomposes only the sub-day remainder, so hours stays
below 24 and minutes and seconds below 60. -/
theorem c5_elapsed_time :
    (∀ t0 : Nat, get_elapsed_time t0 (t0 + 3725) = ⟨1, 2, 5⟩) ∧
    (∀ start now : Nat, (get_elapsed_time start now).hours < 24 ∧
      (get_elapsed_time start now).minutes < 60 ∧
      (get_elapsed_time start now).seconds < 60) := by
  constructor
  · intro t0
    have h : t0 + 3725 - t0 = 3725 := by omega
    simp only [get_elapsed_time, h]
  · intro start now
    refine ⟨?_, ?_, ?_⟩ <;> · simp only [get_elapsed_time]; omega

/-- C8 (counterexample): the constructor does not deduplicate: the list
["fuck", "Fuck"] normalizes to ["fuck", "fuck"], and a transcript with a
single occurrence of "fuck" then contributes 2 to the count, not 1. -/
theorem c8_counterexample :
    initTargetWords ["fuck", "Fuck"] = ["fuck", "fuck"] ∧
    (processText (initTargetWords ["fuck", "Fuck"]) PyCounter.empty "oh fuck").val "fuck" = 2 := by
  decide

/-- C9: the snapshot route get_counts only reads the module globals, so it
leaves the state unchanged and two consecutive calls with no intervening
increment (no state change of any kind between them) return equal
responses. -/
theorem c9_snapshot_idempotent (channel : String) (g : AppGlobals) :
    (get_counts channel g).1 = g ∧
    (get_counts channel ((get_counts channel g).1)).2 = (get_counts channel g).2 :=
  ⟨rfl, rfl⟩

/-- C10: an empty (falsy) target word list is silently replaced by the
default ["fuck"], and the normalized target list is never empty. -/
theorem c10_default_words :
    initTargetWords [] = ["fuck"] ∧ ∀ l : List String, 0 < (initTargetWords l).length := by
  refine ⟨rfl, ?_⟩
  intro l
  unfold initTargetWords
  cases l with
  | nil => decide
  | cons a l => simp [List.isEmpty]

/-- Helper: an occurrence of a nonempty word fits inside the text. -/
theorem occursAt_length {t w : List Char} {p : Nat} (hw : w ≠ [])
    (h : occursAt t w p = true) : p + w.length ≤ t.length := by
  have he : (t.drop p).take w.length = w := of_decide_eq_true h
  have hlen := congrArg List.length he
  simp [List.length_take, List.length_drop] at hlen
  have hw' : w.length ≠ 0 := by
    intro h0
    exact hw (List.length_eq_zero.mp h0)
  omega

/-- Helper: an occurrence determines the text characters position by
position. -/
theorem occursAt_getElem {t w : List Char} {p : Nat} (h : occursAt t w p = true)
    {j : Nat} (hj : j < w.length) : t[p + j]? = w[j]? := by
  have he : (t.drop p).take w.length = w := of_decide_eq_true h
  have h1 : t[p + j]? = (t.drop p)[j]? := (List.getElem?_drop t p j).symm
  have h2 : ((t.drop p).take w.length)[j]? = (t.drop p)[j]? :=
    List.getElem?_take_of_lt hj
  rw [h1, ← h2, he]

/-- Helper: inside an occurrence of a word made of word characters, every
position holds a word character. -/
theorem wordAt_of_occurs {t w : List Char} {p : Nat}
    (hwc : ∀ c ∈ w, isWordChar c = true) (h : occursAt t w p = true)
    {j : Nat} (hj : j < w.length) : wordAt t (p + j) = true := by
  have h1 : t[p + j]? = w[j]? := occursAt_getElem h hj
  have h2 : w[j]? = some w[j] := List.getElem?_eq_getElem hj
  have h3 : wordAt t (p + j) = isWordChar w[j] := by
    unfold wordAt
    rw [h1, h2]
  rw [h3]
  exact hwc _ (List.getElem_mem hj)

/-- Helper: no position strictly inside a boundary-delimited occurrence of
a word made of word characters can itself carry a boundary match, so
matches of such a word never overlap. -/
theorem matchAt_inner_false {t w : List Char} {p q : Nat}
    (hwc : ∀ c ∈ w, isWordChar c = true) (hocc : occursAt t w p = true)
    (h1 : p < q) (h2 : q < p + w.length) : matchAt t w q = false := by
  have hq1 : wordAt t (q - 1) = true := by
    have he : q - 1 = p + (q - 1 - p) := by omega
    rw [he]
    exact wordAt_of_occurs hwc hocc (by omega)
  have hq2 : wordAt t q = true := by
    have he : q = p + (q - p) := by omega
    rw [he]
    exact wordAt_of_occurs hwc hocc (by omega)
  have h0 : 0 < q := by omega
  have hb : boundary t q = false := by
    simp [boundary, hq1, hq2, h0]
  simp [matchAt, hb]

/-- Helper: the non-overlapping left-to-right findall scan counts exactly
the positions at which the boundary pattern matches, provided the target
word is nonempty and made of word characters. -/
theorem findallGo_eq_countP (t w : List Char) (hw : w ≠ [])
    (hwc : ∀ c ∈ w, isWordChar c = true) :
    ∀ fuel p, t.length + 1 ≤ fuel + p →
      findallGo t w p fuel = (List.range' p (t.length + 1 - p)).countP (matchAt t w) := by
  intro fuel
  induction fuel with
  | zero =>
    intro p hp
    have h0 : t.length + 1 - p = 0 := by omega
    rw [h0]
    simp [findallGo, List.range']
  | succ fuel ih =>
    intro p hp
    by_cases hlt : t.length < p
    · have h0 : t.length + 1 - p = 0 := by omega
      rw [h0]
      simp [findallGo, hlt, List.range']
    · by_cases hm : matchAt t w p = true
      · have hocc : occursAt t w p = true := by
          cases hoc : occursAt t w p with
          | true => rfl
          | false =>
            unfold matchAt at hm
            rw [hoc] at hm
            simp at hm
        have hlen : p + w.length ≤ t.length := occursAt_length hw hocc
        have hwpos : 0 < w.length := List.length_pos.mpr hw
        have hmax : max w.length 1 = w.length := by omega
        have hstep : findallGo t w p (fuel + 1)
            = 1 + findallGo t w (p + w.length) fuel := by
          simp [findallGo, hlt, hm, hmax]
        rw [hstep, ih (p + w.length) (by omega)]
        have hsplit : List.range' p (t.length + 1 - p)
            = List.range' p w.length
              ++ List.range' (p + w.length) (t.length + 1 - (p + w.length)) := by
          rw [List.range'_append_1 p w.length (t.length + 1 - (p + w.length))]
          congr 1
          omega
        rw [hsplit, List.countP_append]
        have hfirst : (List.range' p w.length).countP (matchAt t w) = 1 := by
          have hw1 : w.length = (w.length - 1) + 1 := by omega
          rw [hw1, List.range'_succ, List.countP_cons]
          have hzero : (List.range' (p + 1) (w.length - 1)).countP (matchAt t w) = 0 := by
            rw [List.countP_eq_zero]
            intro q hq
            rw [List.mem_range'_1] at hq
            have hf := matchAt_inner_false hwc hocc
              (show p < q by omega) (show q < p + w.length by omega)
            simp [hf]
          rw [hzero]
          simp [hm]
        rw [hfirst]
      · have hm' : matchAt t w p = false := by
          cases h : matchAt t w p with
          | true => exact absurd h hm
          | false => rfl
        have hstep : findallGo t w p (fuel + 1) = findallGo t w (p + 1) fuel := by
          simp [findallGo, hlt, hm']
        have harg : t.length + 1 - (p + 1) = t.length - p := by omega
        have hrange : List.range' p (t.length + 1 - p)
            = p :: List.range' (p + 1) (t.length - p) := by
          have hn : t.length + 1 - p = (t.length - p) + 1 := by omega
          rw [hn, List.range'_succ]
        rw [hstep, ih (p + 1) (by omega), harg, hrange, List.countP_cons]
        simp [hm']

/-- Helper: for a nonempty word made of word characters, the boundary
pattern matches at a position exactly when the word occurs there with no
word character adjacent on either side. -/
theorem matchAt_eq_wordCharCond {t w : List Char} (hw : w ≠ [])
    (hwc : ∀ c ∈ w, isWordChar c = true) (p : Nat) :
    matchAt t w p =
      (occursAt t w p
        && ((decide (p = 0) || !wordAt t (p - 1)) && !wordAt t (p + w.length))) := by
  cases hocc : occursAt t w p with
  | false => simp [matchAt, hocc]
  | true =>
    have hwpos : 0 < w.length := List.length_pos.mpr hw
    have hfirst : wordAt t p = true := by
      have h := wordAt_of_occurs hwc hocc (j := 0) hwpos
      simpa using h
    have hlast : wordAt t (p + w.length - 1) = true := by
      have he : p + w.length - 1 = p + (w.length - 1) := by omega
      rw [he]
      exact wordAt_of_occurs hwc hocc (by omega)
    have hb1 : boundary t p = (decide (p = 0) || !wordAt t (p - 1)) := by
      rcases Nat.eq_zero_or_pos p with hp | hp
      · subst hp
        simp [boundary, hfirst]
      · have hp0 : ¬ p = 0 := by omega
        cases hW : wordAt t (p - 1) <;> simp [boundary, hfirst, hp, hp0, hW]
    have hb2 : boundary t (p + w.length) = !wordAt t (p + w.length) := by
      have hpos : 0 < p + w.length := by omega
      cases hW : wordAt t (p + w.length) <;> simp [boundary, hlast, hpos, hW]
    simp [matchAt, hocc, hb1, hb2]

/-- C2 (counterexample): the matcher's boundary rule is not the spec's
"not adjacent to an alphanumeric character": in the text "_fuck_" the
occurrence of "fuck" has a non-alphanumeric underscore on each side, so
the spec's rule counts it once, but the code's `\b` treats the underscore
as a word character and counts nothing. -/
theorem c2_counterexample :
    specAlnumCount "_fuck_".data "fuck".data = 1 ∧ countWord "_fuck_" "fuck" = 0 := by
  decide

/-- C2 (amended): for every text and every nonempty target word made of
word characters, the matcher counts an occurrence exactly when it is not
adjacent to a word character (alphanumeric or underscore) on either side;
in particular an occurrence lying inside a longer alphanumeric word is
never counted. -/
theorem c2_amended (t w : List Char) (hw : w ≠ [])
    (hwc : ∀ c ∈ w, isWordChar c = true) :
    countMatches t w = specWordCharCount t w := by
  unfold countMatches specWordCharCount
  rw [findallGo_eq_countP t w hw hwc (t.length + 1) 0 (by omega)]
  rw [List.range_eq_range']
  have harg : t.length + 1 - 0 = t.length + 1 := by omega
  rw [harg]
  have hpred : (matchAt t w) = (fun p =>
      occursAt t w p
        && ((decide (p = 0) || !wordAt t (p - 1)) && !wordAt t (p + w.length))) :=
    funext (matchAt_eq_wordCharCond hw hwc)
  rw [hpred]

/-- C2 (witness for the amended theorem): instantiation at the text
"a fuck b" and the word "fuck". -/
theorem c2_amended_witness :
    ("fuck".data ≠ [] ∧ (∀ c ∈ "fuck".data, isWordChar c = true)) ∧
    countMatches "a fuck b".data "fuck".data
      = specWordCharCount "a fuck b".data "fuck".data :=
  ⟨⟨by decide, by decide⟩,
   c2_amended "a fuck b".data "fuck".data (by decide) (by decide)⟩

/-- Helper: the exact unfolding of one capture-loop step on a nonempty
chunk when the window does not complete. -/
theorem streamLoop_cons_acc {cpr : Nat} {d : List Nat}
    {rest frames q : List (List Nat)} (hd : d ≠ [])
    (hnf : ¬ cpr ≤ (frames ++ [d]).length) :
    streamLoop cpr (d :: rest) frames q = streamLoop cpr rest (frames ++ [d]) q := by
  simp only [streamLoop, if_neg hd, if_neg hnf]

/-- Helper: the exact unfolding of one capture-loop step on a nonempty
chunk when the window completes: the accumulated frames are joined and
enqueued and the accumulator resets. -/
theorem streamLoop_cons_full {cpr : Nat} {d : List Nat}
    {rest frames q : List (List Nat)} (hd : d ≠ [])
    (hf : cpr ≤ (frames ++ [d]).length) :
    streamLoop cpr (d :: rest) frames q
      = streamLoop cpr rest [] (q ++ [(frames ++ [d]).flatten]) := by
  simp only [streamLoop, if_neg hd, if_pos hf]

/-- Helper: completeWindows on a sequence shorter than one window. -/
theorem completeWindows_stop {cpr : Nat} {reads : List (List Nat)}
    (h : reads.length < cpr) : completeWindows cpr reads = [] := by
  rw [completeWindows]
  rw [dif_neg (by omega)]

/-- Helper: completeWindows on a sequence holding at least one window. -/
theorem completeWindows_step {cpr : Nat} {reads : List (List Nat)}
    (h1 : 0 < cpr) (h2 : cpr ≤ reads.length) :
    completeWindows cpr reads
      = (reads.take cpr).flatten :: completeWindows cpr (reads.drop cpr) := by
  conv_lhs => rw [completeWindows]
  rw [dif_pos ⟨h1, h2⟩]

/-- Helper: there are exactly ⌊n/cpr⌋ complete windows in n chunks. -/
theorem completeWindows_length_aux {cpr : Nat} (hcpr : 0 < cpr) :
    ∀ (n : Nat) (reads : List (List Nat)), reads.length ≤ n →
      (completeWindows cpr reads).length = reads.length / cpr := by
  intro n
  induction n with
  | zero =>
    intro reads h
    rw [completeWindows_stop (by omega)]
    have h0 : reads.length = 0 := by omega
    rw [h0]
    simp
  | succ n ih =>
    intro reads h
    by_cases hge : cpr ≤ reads.length
    · rw [completeWindows_step hcpr hge]
      simp only [List.length_cons]
      rw [ih (reads.drop cpr) (by simp only [List.length_drop]; omega)]
      rw [List.length_drop]
      rw [Nat.div_eq_sub_div hcpr hge]
    · rw [completeWindows_stop (by omega)]
      rw [Nat.div_eq_of_lt (by omega)]
      rfl

/-- Helper: run from any sub-window accumulator, the capture loop on
nonempty chunks followed by end-of-stream appends to the queue exactly
the complete windows of the accumulated-plus-remaining chunks; the
trailing partial window is dropped at the break. -/
theorem streamLoop_complete {cpr : Nat} (hcpr : 0 < cpr) :
    ∀ (reads frames q : List (List Nat)),
      (∀ d ∈ reads, d ≠ []) → frames.length < cpr →
      streamLoop cpr (reads ++ [[]]) frames q
        = q ++ completeWindows cpr (frames ++ reads) := by
  intro reads
  induction reads with
  | nil =>
    intro frames q hne hf
    have h1 : streamLoop cpr ([] ++ [[]]) frames q = q := by
      simp [streamLoop]
    rw [h1, List.append_nil, completeWindows_stop hf, List.append_nil]
  | cons d rest ih =>
    intro frames q hne hf
    have hd : d ≠ [] := hne d (List.mem_cons_self d rest)
    have hrest : ∀ x ∈ rest, x ≠ [] := fun x hx => hne x (List.mem_cons_of_mem d hx)
    have hlen2 : (frames ++ [d]).length = frames.length + 1 := by
      rw [List.length_append]
      rfl
    by_cases hfull : cpr ≤ (frames ++ [d]).length
    · have hlen : (frames ++ [d]).length = cpr := by omega
      rw [List.cons_append, streamLoop_cons_full hd hfull]
      rw [ih [] (q ++ [(frames ++ [d]).flatten]) hrest (by simpa using hcpr)]
      have hsplit : frames ++ d :: rest = (frames ++ [d]) ++ rest := by
        simp
      have hcw : completeWindows cpr (frames ++ d :: rest)
          = (frames ++ [d]).flatten :: completeWindows cpr rest := by
        rw [hsplit]
        rw [completeWindows_step hcpr (by rw [List.length_append, hlen]; omega)]
        rw [← hlen, List.take_left, List.drop_left]
      rw [hcw, List.nil_append]
      simp [List.append_assoc]
    · rw [List.cons_append, streamLoop_cons_acc hd hfull]
      rw [ih (frames ++ [d]) q hrest (by omega)]
      have hsplit : (frames ++ [d]) ++ rest = frames ++ d :: rest := by
        simp
      rw [hsplit]

/-- C3 (amended): when the upstream byte stream ends (a zero-length
read), the capture loop breaks out and discards any partially accumulated
frames rather than flushing them: for a positive window size, the
enqueued AudioUnits are exactly the complete windows of the captured
chunks, ⌊n/cpr⌋ units for n chunks, so the bytes of an incomplete final
window are lost. -/
theorem c3_amended (cpr : Nat) (reads : List (List Nat)) (hcpr : 0 < cpr)
    (hne : ∀ d ∈ reads, d ≠ []) :
    stream_audio cpr (reads ++ [[]]) = completeWindows cpr reads ∧
    (stream_audio cpr (reads ++ [[]])).length = reads.length / cpr := by
  have h1 : stream_audio cpr (reads ++ [[]]) = completeWindows cpr reads := by
    unfold stream_audio
    have h := streamLoop_complete hcpr reads [] [] hne (by simpa using hcpr)
    simpa using h
  refine ⟨h1, ?_⟩
  rw [h1]
  exact completeWindows_length_aux hcpr reads.length reads le_rfl

/-- C3 (witness for the amended theorem): three captured chunks, window
size two: one complete window [1, 2] is enqueued and the partial third
chunk is discarded. -/
theorem c3_amended_witness :
    ((0 : Nat) < 2 ∧ ∀ d ∈ ([[1], [2], [3]] : List (List Nat)), d ≠ []) ∧
    (stream_audio 2 ([[1], [2], [3]] ++ [[]]) = completeWindows 2 [[1], [2], [3]] ∧
      (stream_audio 2 ([[1], [2], [3]] ++ [[]])).length
        = ([[1], [2], [3]] : List (List Nat)).length / 2) :=
  ⟨⟨by decide, by decide⟩,
   c3_amended 2 [[1], [2], [3]] (by decide) (by decide)⟩

/-- Helper: the key list of an increment, as an equation. -/
theorem incr_keys (c : PyCounter) (a : String) (n : Nat) :
    (c.incr a n).keys = if a ∈ c.keys then c.keys else c.keys ++ [a] := rfl

/-- Helper: the count function of an increment, as an equation. -/
theorem incr_val (c : PyCounter) (a x : String) (n : Nat) :
    (c.incr a n).val x = if x = a then c.val x + n else c.val x := rfl

/-- Helper: an increment adds at most the incremented word as a key. -/
theorem incr_keys_sub {c : PyCounter} {a w : String} {n : Nat}
    (h : w ∈ (c.incr a n).keys) : w ∈ c.keys ∨ w = a := by
  rw [incr_keys] at h
  by_cases hmem : a ∈ c.keys
  · rw [if_pos hmem] at h
    exact Or.inl h
  · rw [if_neg hmem] at h
    rcases List.mem_append.mp h with h1 | h2
    · exact Or.inl h1
    · exact Or.inr (by simpa using h2)

/-- Helper: the word-match loop only ever adds keys drawn from the target
list. -/
theorem processText_keys :
    ∀ (tws : List String) (c : PyCounter) (text w : String),
      w ∈ (processText tws c text).keys → w ∈ c.keys ∨ w ∈ tws := by
  intro tws
  induction tws with
  | nil =>
    intro c text w h
    exact Or.inl h
  | cons a rest ih =>
    intro c text w h
    have hstep : processText (a :: rest) c text
        = processText rest
            (if 0 < countWord text a then c.incr a (countWord text a) else c) text := rfl
    rw [hstep] at h
    rcases ih _ text w h with hk | ht
    · by_cases hc : 0 < countWord text a
      · rw [if_pos hc] at hk
        rcases incr_keys_sub hk with h1 | h2
        · exact Or.inl h1
        · exact Or.inr (by simp [h2])
      · rw [if_neg hc] at hk
        exact Or.inl hk
    · exact Or.inr (List.mem_cons_of_mem a ht)

/-- Helper: over a whole outcome stream, every counter key comes from the
initial keys or the target list. -/
theorem processAll_keys :
    ∀ (rs : List RecognitionOutcome) (tws : List String)
      (st : PyCounter × List String) (w : String),
      w ∈ (processAll tws st rs).1.keys → w ∈ st.1.keys ∨ w ∈ tws := by
  intro rs
  induction rs with
  | nil =>
    intro tws st w h
    exact Or.inl h
  | cons r rest ih =>
    intro tws st w h
    have hstep : processAll tws st (r :: rest)
        = processAll tws (processOutcome tws st r) rest := rfl
    rw [hstep] at h
    rcases ih tws _ w h with hk | ht
    · cases r with
      | text s => exact processText_keys tws st.1 (str_lower s) w hk
      | unknownValue => exact Or.inl hk
      | requestError msg => exact Or.inl hk
    · exact Or.inr ht

/-- C4 (amended): the counter-table increment performs no validation and
never fails, but the pipeline only ever increments words of the target
list, so starting from the empty counter every key of the final counter
table is a target word. -/
theorem c4_amended (tws : List String) (rs : List RecognitionOutcome) (w : String)
    (h : w ∈ (processAll tws (PyCounter.empty, []) rs).1.keys) : w ∈ tws := by
  rcases processAll_keys rs tws (PyCounter.empty, []) w h with hk | ht
  · exact absurd hk (List.not_mem_nil w)
  · exact ht

/-- C4 (witness for the amended theorem): the scenario with target list
["fuck"] and one transcript containing the word. -/
theorem c4_amended_witness :
    "fuck" ∈ (processAll ["fuck"] (PyCounter.empty, [])
        [RecognitionOutcome.text "oh fuck"]).1.keys
    ∧ "fuck" ∈ (["fuck"] : List String) :=
  ⟨by decide,
   c4_amended ["fuck"] [RecognitionOutcome.text "oh fuck"] "fuck" (by decide)⟩

/-- Helper: a word with zero matches in the transcript is neither
incremented nor given a key by the word-match loop. -/
theorem processText_zero :
    ∀ (tws : List String) (c : PyCounter) (text w : String),
      countWord text w = 0 →
      (processText tws c text).val w = c.val w ∧
      (w ∉ c.keys → w ∉ (processText tws c text).keys) := by
  intro tws
  induction tws with
  | nil =>
    intro c text w h
    exact ⟨rfl, fun h2 => h2⟩
  | cons a rest ih =>
    intro c text w h
    have hstep : processText (a :: rest) c text
        = processText rest
            (if 0 < countWord text a then c.incr a (countWord text a) else c) text := rfl
    rw [hstep]
    by_cases hc : 0 < countWord text a
    · rw [if_pos hc]
      have hne : w ≠ a := by
        intro he
        subst he
        omega
      have hval : (c.incr a (countWord text a)).val w = c.val w := by
        rw [incr_val, if_neg hne]
      have hkeys : w ∉ c.keys → w ∉ (c.incr a (countWord text a)).keys := by
        intro h2
        rw [incr_keys]
        by_cases hmem : a ∈ c.keys
        · rw [if_pos hmem]
          exact h2
        · rw [if_neg hmem]
          intro hin
          rcases List.mem_append.mp hin with hx | hx
          · exact h2 hx
          · exact hne (by simpa using hx)
      rcases ih (c.incr a (countWord text a)) text w h with ⟨iv, ik⟩
      exact ⟨iv.trans hval, fun h2 => ik (hkeys h2)⟩
    · rw [if_neg hc]
      exact ih c text w h

/-- C6: for every transcript and target word with zero whole-word
occurrences, the match step neither changes the stored count for that
word nor creates an entry (key) for it: the counter stays sparse, holding
only words that have actually matched. -/
theorem c6_sparse_matches (tws : List String) (c : PyCounter) (text w : String)
    (h1 : countWord text w = 0) (h2 : w ∉ c.keys) :
    (processText tws c text).val w = c.val w ∧ w ∉ (processText tws c text).keys := by
  rcases processText_zero tws c text w h1 with ⟨hv, hk⟩
  exact ⟨hv, hk h2⟩

/-- C6 (witness): the word "fuck" does not occur in "hello there", so the
empty counter is left without an entry for it. -/
theorem c6_sparse_matches_witness :
    (countWord "hello there" "fuck" = 0 ∧ "fuck" ∉ PyCounter.empty.keys) ∧
    ((processText ["fuck"] PyCounter.empty "hello there").val "fuck"
        = PyCounter.empty.val "fuck" ∧
      "fuck" ∉ (processText ["fuck"] PyCounter.empty "hello there").keys) :=
  ⟨⟨by decide, by decide⟩,
   c6_sparse_matches ["fuck"] PyCounter.empty "hello there" "fuck"
     (by decide) (by decide)⟩

/-- Helper: the counter component of a pipeline run does not depend on
the log accumulated so far. -/
theorem processAll_fst_log :
    ∀ (rs : List RecognitionOutcome) (tws : List String) (c : PyCounter)
      (l1 l2 : List String),
      (processAll tws (c, l1) rs).1 = (processAll tws (c, l2) rs).1 := by
  intro rs
  induction rs with
  | nil =>
    intro tws c l1 l2
    rfl
  | cons r rest ih =>
    intro tws c l1 l2
    cases r with
    | text s => exact ih tws (processText tws c (str_lower s)) l1 l2
    | unknownValue => exact ih tws c l1 l2
    | requestError msg => exact ih tws c _ _

/-- Helper: the pipeline only appends to the log, so logged lines
persist. -/
theorem processAll_log_mem :
    ∀ (rs : List RecognitionOutcome) (tws : List String) (c : PyCounter)
      (l : List String) (x : String),
      x ∈ l → x ∈ (processAll tws (c, l) rs).2 := by
  intro rs
  induction rs with
  | nil =>
    intro tws c l x h
    exact h
  | cons r rest ih =>
    intro tws c l x h
    cases r with
    | text s => exact ih tws _ l x h
    | unknownValue => exact ih tws c l x h
    | requestError msg => exact ih tws c _ x (List.mem_append_left _ h)

/-- C7: a service error (RequestError) on one sub-clip is logged and the
sub-clip skipped, leaving the final counts exactly as if that sub-clip
had not existed, while all other units are still processed; a no-speech
outcome (UnknownValueError) is skipped silently, changing nothing.  The
pipeline functions are total, so no outcome stops the run. -/
theorem c7_service_error_skipped (tws : List String) (c : PyCounter)
    (log : List String) (rs1 rs2 : List RecognitionOutcome) (msg : String) :
    (processAll tws (c, log) (rs1 ++ RecognitionOutcome.requestError msg :: rs2)).1
      = (processAll tws (c, log) (rs1 ++ rs2)).1
    ∧ ("Error with speech recognition service: " ++ msg)
        ∈ (processAll tws (c, log) (rs1 ++ RecognitionOutcome.requestError msg :: rs2)).2
    ∧ processOutcome tws (c, log) RecognitionOutcome.unknownValue = (c, log) := by
  have hsplit1 : processAll tws (c, log) (rs1 ++ RecognitionOutcome.requestError msg :: rs2)
      = processAll tws
          (processOutcome tws (processAll tws (c, log) rs1)
            (RecognitionOutcome.requestError msg)) rs2 := by
    unfold processAll
    rw [List.foldl_append, List.foldl_cons]
  have hsplit2 : processAll tws (c, log) (rs1 ++ rs2)
      = processAll tws (processAll tws (c, log) rs1) rs2 := by
    unfold processAll
    rw [List.foldl_append]
  refine ⟨?_, ?_, rfl⟩
  · rw [hsplit1, hsplit2]
    rcases hst : processAll tws (c, log) rs1 with ⟨c1, l1⟩
    exact processAll_fst_log rs2 tws c1
      (l1 ++ ["Error with speech recognition service: " ++ msg]) l1
  · rw [hsplit1]
    rcases hst : processAll tws (c, log) rs1 with ⟨c1, l1⟩
    exact processAll_log_mem rs2 tws c1
      (l1 ++ ["Error with speech recognition service: " ++ msg]) _
      (List.mem_append_right _ (by simp))

/-- Helper: each target-list entry equal to w contributes the findall
count of w once; the stored count grows by multiplicity times the match
count. -/
theorem processText_val :
    ∀ (tws : List String) (c : PyCounter) (text w : String),
      (processText tws c text).val w = c.val w + tws.count w * countWord text w := by
  intro tws
  induction tws with
  | nil =>
    intro c text w
    simp [processText]
  | cons a rest ih =>
    intro c text w
    have hstep : processText (a :: rest) c text
        = processText rest
            (if 0 < countWord text a then c.incr a (countWord text a) else c) text := rfl
    rw [hstep, ih]
    by_cases ha : a = w
    · subst ha
      rw [List.count_cons_self]
      by_cases hc : 0 < countWord text a
      · rw [if_pos hc, incr_val, if_pos rfl, Nat.add_mul, Nat.one_mul]
        omega
      · have hc0 : countWord text a = 0 := by omega
        rw [if_neg hc, hc0]
        simp
    · have hne : w ≠ a := fun he => ha he.symm
      have hcount : (a :: rest).count w = rest.count w := by
        simp [List.count_cons, hne]
      rw [hcount]
      by_cases hc : 0 < countWord text a
      · rw [if_pos hc, incr_val, if_neg hne]
      · rw [if_neg hc]

/-- C8 (amended): the constructor lowercases the configured words but
does not deduplicate them, so processing a transcript adds, for each
word, its whole-word match count once per (lowercased) list entry: a
single occurrence contributes one count per duplicate entry, not one
count overall. -/
theorem c8_amended (l : List String) (c : PyCounter) (text w : String)
    (h : l ≠ []) :
    (processText (initTargetWords l) c text).val w
      = c.val w + (l.map str_lower).count w * countWord text w := by
  have hinit : initTargetWords l = l.map str_lower := by
    cases l with
    | nil => exact absurd rfl h
    | cons a l => rfl
  rw [hinit, processText_val]

/-- C8 (witness for the amended theorem): duplicated entry "fuck", one
occurrence in the transcript, final count two. -/
theorem c8_amended_witness :
    (["fuck", "fuck"] : List String) ≠ [] ∧
    (processText (initTargetWords ["fuck", "fuck"]) PyCounter.empty "oh fuck").val "fuck"
      = PyCounter.empty.val "fuck"
        + ((["fuck", "fuck"] : List String).map str_lower).count "fuck"
          * countWord "oh fuck" "fuck" :=
  ⟨by decide, c8_amended ["fuck", "fuck"] PyCounter.empty "oh fuck" "fuck" (by decide)⟩
